import Mathlib

/-!
Verification of the reversible-residual core of the Reformer model
(src/trax/models/reformer/reformer.py).

Tensors are modelled as flat integer lists (exact arithmetic) and the trax
data stack as a list of tensors.  The elementary stack combinators
(tl.Dup, tl.Swap, tl.Select, tl.Add, tl.SubtractTop, tl.Parallel) and the
numpy reshape/split/concatenate operations live outside the single source
file; their semantics are modelled from the spec's "Tensor Op Provider"
boundary (shape-preserving elementwise add/subtract, reshape/concat/split
along a specified axis, reverse-mode vector-Jacobian products).
-/

/-- A tensor in exact (integer) arithmetic. -/
abbrev Tensor := List Int

/-- The trax data stack: a list of tensors. -/
abbrev Stack := List Tensor

/-- Modelled from the spec: shape-preserving elementwise addition
(the tl.Add layer of the external layer framework). -/
def tAdd (a b : Tensor) : Tensor := List.zipWith (· + ·) a b

/-- Modelled from the spec: shape-preserving elementwise subtraction
(the tl.SubtractTop layer subtracts the top stack entry from the second). -/
def tSub (a b : Tensor) : Tensor := List.zipWith (· - ·) a b

/-- Modelled from the spec: tl.Parallel([], tl.Dup()) duplicates the second
stack entry in place. -/
def dupSecond : Stack → Stack
  | x1 :: x2 :: rest => x1 :: x2 :: x2 :: rest
  | s => s

/-- Modelled from the spec: tl.Swap() exchanges the two top stack entries. -/
def swapTop : Stack → Stack
  | a :: b :: rest => b :: a :: rest
  | s => s

/-- Modelled from the spec: tl.Parallel([], [], residual_layers) applies the
wrapped residual computation to the third stack entry. -/
def applyThird {W : Type} (f : W → Tensor → Tensor) (w : W) : Stack → Stack
  | a :: b :: c :: rest => a :: b :: f w c :: rest
  | s => s

/-- Modelled from the spec: tl.Select([2, 1, 0]) reverses the order of the
three top stack entries. -/
def select210 : Stack → Stack
  | a :: b :: c :: rest => c :: b :: a :: rest
  | s => s

/-- Modelled from the spec: tl.Parallel(tl.Add(), ...preserve) adds the two
top stack entries. -/
def addTop : Stack → Stack
  | a :: b :: rest => tAdd a b :: rest
  | s => s

/-- Modelled from the spec: tl.Parallel(tl.SubtractTop(), ...preserve)
replaces the two top entries by (second - top). -/
def subtractTop : Stack → Stack
  | a :: b :: rest => tSub b a :: rest
  | s => s

namespace ReversibleHalfResidual

/-- compute_residual from ReversibleHalfResidual.__init__:
Serial(Parallel([], Dup()), Swap(), Parallel([], [], residual_layers),
Select([2, 1, 0])).  On a stack x1 :: x2 :: rest it produces
(residual f x2) :: x1 :: x2 :: rest. -/
def compute_residual {W : Type} (f : W → Tensor → Tensor) (w : W) (s : Stack) : Stack :=
  select210 (applyThird f w (swapTop (dupSecond s)))

/-- The forward pass of ReversibleHalfResidual: compute_residual followed by
Parallel(Add(), ...preserve). -/
def forward {W : Type} (f : W → Tensor → Tensor) (w : W) (s : Stack) : Stack :=
  addTop (compute_residual f w s)

/-- reverse_layers = [compute_residual, subtract_top], as weight-indexed
stack transformations. -/
def reverse_layers {W : Type} (f : W → Tensor → Tensor) : List (W → Stack → Stack) :=
  [fun w s => compute_residual f w s, fun _ s => subtractTop s]

/-- The Python for-loop of ReversibleHalfResidual.reverse: layers, weights,
state and new_state are zipped, silently truncating to the shortest of the
sequences, exactly as Python's zip does. -/
def applySeq {W : Type} : List (W → Stack → Stack) → List W → List Unit → List Unit →
    Stack → Stack
  | l :: ls, w :: ws, _ :: ss, _ :: ns, s => applySeq ls ws ss ns (l w s)
  | _, _, _, _, s => s

/-- ReversibleHalfResidual.reverse. -/
def reverse {W : Type} (f : W → Tensor → Tensor) (output : Stack) (weights : List W)
    (state new_state : List Unit) : Stack :=
  applySeq (reverse_layers f) weights state new_state output

/-- Modelled from the spec: the reverse-mode differentiation primitive
(jax.vjp) applied to compute_residual.  The cotangent is pulled back through
Select([2,1,0]), Parallel([], [], residual_layers) (using the supplied
vector-Jacobian products fvx, fvw of the residual computation at the primal
point it actually consumed), Swap() and Parallel([], Dup()). -/
def compute_residual_vjp {W Wct : Type} [Inhabited Wct]
    (fvx : W → Tensor → Tensor → Tensor) (fvw : W → Tensor → Tensor → Wct)
    (w : W) (inp ct : Stack) : Stack × Wct :=
  let s2 := swapTop (dupSecond inp)
  let third := match s2 with | _ :: _ :: c :: _ => c | _ => []
  let cSel := select210 ct
  let cApp := match cSel with
    | c1 :: c2 :: c3 :: r => c1 :: c2 :: fvx w third c3 :: r
    | s => s
  let wct := match cSel with | _ :: _ :: c3 :: _ => fvw w third c3 | _ => default
  let cSwap := swapTop cApp
  let cDup := match cSwap with | e1 :: e2 :: e3 :: r => e1 :: tAdd e2 e3 :: r | s => s
  (cDup, wct)

/-- ReversibleHalfResidual.reverse_and_grad: the cotangent is expanded as
ct = (ct[0], ct[0]) + ct[1:], compute_residual is evaluated (with its
vector-Jacobian product) at the *output*, subtract_top reconstructs the
input, and the weight cotangent of the Add layer is the empty tuple. -/
def reverse_and_grad {W Wct : Type} [Inhabited Wct] (f : W → Tensor → Tensor)
    (fvx : W → Tensor → Tensor → Tensor) (fvw : W → Tensor → Tensor → Wct)
    (w : W) (output ct : Stack) : Stack × (Stack × (Wct × Unit)) :=
  let ct3 := match ct with | c0 :: r => c0 :: c0 :: r | [] => []
  let stack := compute_residual f w output
  let reconstructed := subtractTop stack
  let xw := compute_residual_vjp fvx fvw w output ct3
  (reconstructed, (xw.1, (xw.2, ())))

/-- The naive differentiation path of the spec: run the forward pass
retaining the intermediate stack, then apply standard reverse-mode
differentiation: pull the cotangent back through Parallel(Add(), ...)
and then through compute_residual at the retained input.  Returns the
(retained) forward output together with the input and weight cotangents. -/
def naive_grad {W Wct : Type} [Inhabited Wct] (f : W → Tensor → Tensor)
    (fvx : W → Tensor → Tensor → Tensor) (fvw : W → Tensor → Tensor → Wct)
    (w : W) (x ct : Stack) : Stack × (Stack × Wct) :=
  let y := forward f w x
  let ctAdd := match ct with | c :: r => c :: c :: r | [] => []
  (y, compute_residual_vjp fvx fvw w x ctAdd)

end ReversibleHalfResidual

/-- A triple of tensors, the (queries, keys, values) produced by the
pre-attention layers. -/
abbrev Triple := Tensor × Tensor × Tensor

namespace ReversibleAttentionHalfResidual

/-- Modelled from the spec: tl.Parallel(pre_attention, [], []) applies the
pre-attention layers (1 input, 3 outputs) to the top stack entry. -/
def applyPreFirst {Wp : Type} (pre : Wp → Tensor → Triple) (w : Wp) : Stack → Stack
  | a :: b :: c :: rest => (pre w a).1 :: (pre w a).2.1 :: (pre w a).2.2 :: b :: c :: rest
  | s => s

/-- self.pre_attention = Serial(Parallel([], Dup()), Swap(),
Parallel(pre_attention, [], [])): on x1 :: x2 :: rest it produces
q :: k :: v :: x1 :: x2 :: rest with (q, k, v) = pre x2. -/
def pre_attention {Wp : Type} (pre : Wp → Tensor → Triple) (w : Wp) (s : Stack) : Stack :=
  applyPreFirst pre w (swapTop (dupSecond s))

/-- Modelled from the spec: ApplyAttentionWrapper = Parallel(attention, [], []):
the attention module consumes (q, k, v) from the top of the stack. -/
def applyAttention (att : Triple → Tensor) : Stack → Stack
  | q :: k :: v :: rest => att (q, k, v) :: rest
  | s => s

/-- self.post_attention = Parallel(post_attention, [], []). -/
def applyPostFirst {Wq : Type} (post : Wq → Tensor → Tensor) (w : Wq) : Stack → Stack
  | a :: b :: c :: rest => post w a :: b :: c :: rest
  | s => s

/-- The forward pass of ReversibleAttentionHalfResidual:
pre_attention, attention, post_attention, Parallel(Add(), []). -/
def forward {Wp Wq : Type} (pre : Wp → Tensor → Triple) (att : Triple → Tensor)
    (post : Wq → Tensor → Tensor) (wp : Wp) (wq : Wq) (s : Stack) : Stack :=
  addTop (applyPostFirst post wq (applyAttention att (pre_attention pre wp s)))

/-- Modelled from the spec: jax.vjp of self.pre_attention, built from the
vector-Jacobian products prevx, prevw of the pre-attention layers at the
primal point they actually consumed. -/
def pre_attention_vjp {Wp WpCt : Type} [Inhabited WpCt]
    (prevx : Wp → Tensor → Triple → Tensor) (prevw : Wp → Tensor → Triple → WpCt)
    (w : Wp) (inp ct : Stack) : Stack × WpCt :=
  let third := match swapTop (dupSecond inp) with | a :: _ => a | _ => []
  let cApp := match ct with
    | cq :: ck :: cv :: r => prevx w third (cq, ck, cv) :: r
    | s => s
  let wct := match ct with | cq :: ck :: cv :: _ => prevw w third (cq, ck, cv) | _ => default
  let cSwap := swapTop cApp
  let cDup := match cSwap with | e1 :: e2 :: e3 :: r => e1 :: tAdd e2 e3 :: r | s => s
  (cDup, wct)

/-- Modelled from the spec: jax.vjp of self.post_attention with respect to
its inputs only, evaluated at the head of the given primal stack (the code
supplies dummy primal values here; postvx is the vector-Jacobian product of
the post-attention layers with respect to their input). -/
def post_attention_vjpx {Wq : Type} (postvx : Wq → Tensor → Tensor → Tensor)
    (w : Wq) (primal ct : Stack) : Stack :=
  match primal, ct with
  | a :: _, c1 :: r => postvx w a c1 :: r
  | _, c => c

/-- Modelled from the spec: jax.vjp of self.post_attention with respect to
its weights only, evaluated at the head of the given primal stack. -/
def post_attention_vjpw {Wq WqCt : Type} [Inhabited WqCt]
    (postvw : Wq → Tensor → Tensor → WqCt) (w : Wq) (primal ct : Stack) : WqCt :=
  match primal, ct with
  | a :: _, c1 :: _ => postvw w a c1
  | _, _ => default

/-- ApplyAttentionWrapper.forward_and_backward: qkv = inputs[:3],
passthrough = inputs[3:], out_ct = ct[0], passthrough_ct = ct[1:]; the
attention module's fused operation produces (out, qkv_ct). -/
def forward_and_backward (attFB : Triple → Tensor → Tensor × Triple)
    (s ct : Stack) : Stack × Stack :=
  match s, ct with
  | q :: k :: v :: pass, c0 :: cpass =>
      let ob := attFB (q, k, v) c0
      (ob.1 :: pass, ob.2.1 :: ob.2.2.1 :: ob.2.2.2 :: cpass)
  | _, _ => (s, ct)

/-- ReversibleAttentionHalfResidual.reverse_and_grad, following the source
step by step: vjp of pre_attention at the output, cotangent expansion
ct = (ct[0], ct[0], ct[1]), backprop through post_attention with respect to
inputs only at the dummy primal (stack[-3], stack[-2], stack[-1]), fused
forward-and-backward through attention, backprop through pre_attention,
forward through post_attention with weight-only backprop using the saved
cotangent, and finally subtract_top. -/
def reverse_and_grad {Wp WpCt Wq WqCt : Type} [Inhabited WpCt] [Inhabited WqCt]
    (pre : Wp → Tensor → Triple) (prevx : Wp → Tensor → Triple → Tensor)
    (prevw : Wp → Tensor → Triple → WpCt) (attFB : Triple → Tensor → Tensor × Triple)
    (post : Wq → Tensor → Tensor) (postvx : Wq → Tensor → Tensor → Tensor)
    (postvw : Wq → Tensor → Tensor → WqCt) (wp : Wp) (wq : Wq)
    (output ct : Stack) : Stack × (Stack × (WpCt × Unit × WqCt × Unit)) :=
  let stack := pre_attention pre wp output
  let saved := match ct with | c0 :: r => c0 :: c0 :: r | [] => []
  let dummy := stack.drop (stack.length - 3)
  let ct1 := post_attention_vjpx postvx wq dummy saved
  let fb := forward_and_backward attFB stack ct1
  let xw := pre_attention_vjp prevx prevw wp output fb.2
  let postwct := post_attention_vjpw postvw wq fb.1 saved
  let stack3 := applyPostFirst post wq fb.1
  let reconstructed := subtractTop stack3
  (reconstructed, (xw.1, (xw.2, (), postwct, ())))

/-- The residual function of the naive composition
ReversibleHalfResidual([pre_attention, attention, post_attention]). -/
def naiveRes {Wp Wq : Type} (pre : Wp → Tensor → Triple) (att : Triple → Tensor)
    (post : Wq → Tensor → Tensor) : Wp × Wq → Tensor → Tensor :=
  fun w x => post w.2 (att (pre w.1 x))

/-- Modelled from the spec: the chain-rule vector-Jacobian product (with
respect to the input) of the composed residual post ∘ attention ∘ pre, with
every factor evaluated at the primal point the true forward pass consumed. -/
def naiveResVjpX {Wp Wq : Type} (pre : Wp → Tensor → Triple)
    (prevx : Wp → Tensor → Triple → Tensor) (att : Triple → Tensor)
    (attv : Triple → Tensor → Triple) (postvx : Wq → Tensor → Tensor → Tensor) :
    Wp × Wq → Tensor → Tensor → Tensor :=
  fun w x c => prevx w.1 x (attv (pre w.1 x) (postvx w.2 (att (pre w.1 x)) c))

/-- Modelled from the spec: the chain-rule vector-Jacobian product (with
respect to the weights) of the composed residual post ∘ attention ∘ pre. -/
def naiveResVjpW {Wp WpCt Wq WqCt : Type} (pre : Wp → Tensor → Triple)
    (prevw : Wp → Tensor → Triple → WpCt) (att : Triple → Tensor)
    (attv : Triple → Tensor → Triple) (postvx : Wq → Tensor → Tensor → Tensor)
    (postvw : Wq → Tensor → Tensor → WqCt) :
    Wp × Wq → Tensor → Tensor → WpCt × WqCt :=
  fun w x c => (prevw w.1 x (attv (pre w.1 x) (postvx w.2 (att (pre w.1 x)) c)),
                postvw w.2 (att (pre w.1 x)) c)

end ReversibleAttentionHalfResidual

/-- An n-dimensional array: a shape together with flat (row-major) data.
Reshaping changes only the shape, never the data. -/
structure NdArray where
  shape : List Nat
  data : List Int
deriving DecidableEq

/-- The Chunk layer: reshape [batch, length, ...] to
[batch * n_sections, length / n_sections, ...].  The assert on
x.shape[1] % n_sections (and Python's indexing / division) makes the
operation fail — modelled as none — when the rank is below 2, when
n_sections is 0, or when the length is not divisible. -/
def Chunk (n_sections : Nat) (x : NdArray) : Option NdArray :=
  match x.shape with
  | b :: l :: rest =>
      if 0 < n_sections ∧ l % n_sections = 0 then
        some ⟨(b * n_sections) :: (l / n_sections) :: rest, x.data⟩
      else none
  | _ => none

/-- The Unchunk layer: reshape [batch, length, ...] to
[batch / n_sections, length * n_sections, ...], failing under the mirrored
conditions of Chunk. -/
def Unchunk (n_sections : Nat) (x : NdArray) : Option NdArray :=
  match x.shape with
  | b :: l :: rest =>
      if 0 < n_sections ∧ b % n_sections = 0 then
        some ⟨(b / n_sections) :: (l * n_sections) :: rest, x.data⟩
      else none
  | _ => none

/-- A rank-3 tensor (batch, length-axis, feature-axis) with explicit
entries, used for the SplitForOutput layer whose semantics permute entries. -/
abbrev Arr3 := List (List (List Int))

namespace SplitForOutput

/-- Modelled from the spec: section i of np.split(m, n, axis=0) on a single
matrix: rows i*(len/n) up to (i+1)*(len/n). -/
def msec (n i : Nat) (m : List (List Int)) : List (List Int) :=
  (m.drop (i * (m.length / n))).take (m.length / n)

/-- Modelled from the spec: np.split(x, n, axis=-2) on a rank-3 tensor. -/
def splitAxis1 (n : Nat) (x : Arr3) : List Arr3 :=
  (List.range n).map (fun i => x.map (msec n i))

/-- Modelled from the spec: np.concatenate([a, b], -1) on rank-3 tensors:
rows are appended along the feature axis. -/
def concatLast (a b : Arr3) : Arr3 :=
  List.zipWith (fun ma mb => List.zipWith (· ++ ·) ma mb) a b

/-- SplitForOutput.forward with axis = -2: split both streams along the
length axis into n_sections pieces and concatenate matching pieces along
the feature axis. -/
def forward (n_sections : Nat) (x1 x2 : Arr3) : List Arr3 :=
  List.zipWith concatLast (splitAxis1 n_sections x1) (splitAxis1 n_sections x2)

/-- The first half of np.split(y, 2, -1): the low half of every feature row. -/
def halfLo (y : Arr3) : Arr3 :=
  y.map (fun m => m.map (fun r => r.take (r.length / 2)))

/-- The second half of np.split(y, 2, -1). -/
def halfHi (y : Arr3) : Arr3 :=
  y.map (fun m => m.map (fun r => r.drop (r.length / 2)))

/-- Modelled from the spec: np.concatenate(pieces, axis=-2): append the
pieces along the length axis, batch entry by batch entry. -/
def concatAxis1 : List Arr3 → Arr3
  | [] => []
  | [t] => t
  | t :: ts => List.zipWith (· ++ ·) t (concatAxis1 ts)

/-- SplitForOutput.reverse: split every output chunk in two along the
feature axis and concatenate the halves along the length axis. -/
def reverse (output : List Arr3) : Arr3 × Arr3 :=
  (concatAxis1 (output.map halfLo), concatAxis1 (output.map halfHi))

/-- SplitForOutput.reverse_and_grad: the input cotangent is reverse applied
to the output cotangent and the weight cotangent is the empty tuple. -/
def reverse_and_grad (output ct : List Arr3) : (Arr3 × Arr3) × ((Arr3 × Arr3) × Unit) :=
  (reverse output, (reverse ct, ()))

/-- The tensor x is rectangular with batch B, length L and feature depth d. -/
def Rect (x : Arr3) (B L d : Nat) : Prop :=
  x.length = B ∧ ∀ m ∈ x, m.length = L ∧ ∀ r ∈ m, r.length = d

instance (x : Arr3) (B L d : Nat) : Decidable (Rect x B L d) := by
  unfold Rect; infer_instance

/-- The shape [batch, length, feature] of a rank-3 tensor (reading the
extents off the first entries). -/
def shape3 (t : Arr3) : List Nat :=
  [t.length, (t.headD []).length, ((t.headD []).headD []).length]

end SplitForOutput

theorem tSub_tAdd_cancel (r x : Tensor) (h : r.length = x.length) :
    tSub (tAdd r x) r = x := by
  induction r generalizing x with
  | nil =>
    cases x with
    | nil => rfl
    | cons b xs => simp at h
  | cons a rs ih =>
    cases x with
    | nil => simp at h
    | cons b xs =>
      show (a + b - a) :: tSub (tAdd rs xs) rs = b :: xs
      rw [ih xs (by simpa using h), add_sub_cancel_left]

theorem tAdd_comm (a b : Tensor) : tAdd a b = tAdd b a := by
  induction a generalizing b with
  | nil => cases b <;> rfl
  | cons x xs ih =>
    cases b with
    | nil => rfl
    | cons y ys =>
      show (x + y) :: tAdd xs ys = (y + x) :: tAdd ys xs
      rw [ih ys, Int.add_comm]

/-- C1: for a two-stream input with matching shapes and a shape-preserving,
deterministic residual function (same weights, state and rng on both
calls, folded into f), ReversibleHalfResidual.reverse applied to the
forward output reproduces the original input exactly. -/
theorem claim1_reverse_forward {W : Type} (f : W → Tensor → Tensor) (w wsub : W)
    (x1 x2 : Tensor) (rest : Stack)
    (hf : (f w x2).length = x2.length) (hx : x1.length = x2.length) :
    ReversibleHalfResidual.reverse f
      (ReversibleHalfResidual.forward f w (x1 :: x2 :: rest))
      [w, wsub] [(), ()] [(), ()] = x1 :: x2 :: rest := by
  simp only [ReversibleHalfResidual.reverse, ReversibleHalfResidual.reverse_layers,
    ReversibleHalfResidual.applySeq, ReversibleHalfResidual.forward,
    ReversibleHalfResidual.compute_residual, dupSecond, swapTop, applyThird,
    select210, addTop, subtractTop]
  rw [tSub_tAdd_cancel _ _ (by omega)]

/-- Concrete instance of C1: residual doubling, x1 = [1, 2], x2 = [3, 4]. -/
theorem claim1_witness :
    ReversibleHalfResidual.reverse (fun (_ : Unit) (t : Tensor) => t.map (· * 2))
      (ReversibleHalfResidual.forward (fun (_ : Unit) (t : Tensor) => t.map (· * 2)) ()
        [[1, 2], [3, 4]]) [(), ()] [(), ()] [(), ()] = [[1, 2], [3, 4]] :=
  claim1_reverse_forward (fun _ t => t.map (· * 2)) () () [1, 2] [3, 4] []
    (by decide) (by decide)

/-- C4: the forward pass returns (x1 + r, x2) where the residual r is
computed by applying the wrapped residual layers only to the preserved
stream x2; any residual function agreeing with f at x2 yields the same
output (f is never evaluated on x1), and x2 is returned unchanged. -/
theorem claim4_forward_shape {W : Type} (f : W → Tensor → Tensor) (w : W)
    (x1 x2 : Tensor) (rest : Stack) :
    ReversibleHalfResidual.forward f w (x1 :: x2 :: rest)
      = tAdd x1 (f w x2) :: x2 :: rest
    ∧ ∀ g : W → Tensor → Tensor, g w x2 = f w x2 →
        ReversibleHalfResidual.forward g w (x1 :: x2 :: rest)
          = ReversibleHalfResidual.forward f w (x1 :: x2 :: rest) := by
  constructor
  · simp only [ReversibleHalfResidual.forward, ReversibleHalfResidual.compute_residual,
      dupSecond, swapTop, applyThird, select210, addTop]
    rw [tAdd_comm]
  · intro g hg
    simp only [ReversibleHalfResidual.forward, ReversibleHalfResidual.compute_residual,
      dupSecond, swapTop, applyThird, select210, addTop]
    rw [hg]

/-- Concrete instance of C4 at x1 = [5], x2 = [7], with two residual
functions that agree at [7]. -/
theorem claim4_witness :
    ReversibleHalfResidual.forward (fun (_ : Unit) (t : Tensor) => t.map (· + 1)) ()
      [[5], [7]] = [[13], [7]]
    ∧ ReversibleHalfResidual.forward (fun (_ : Unit) (t : Tensor) => t.map (15 - ·)) ()
        [[5], [7]]
      = ReversibleHalfResidual.forward (fun (_ : Unit) (t : Tensor) => t.map (· + 1)) ()
        [[5], [7]] := by
  have h := claim4_forward_shape (fun (_ : Unit) (t : Tensor) => t.map (· + 1)) () [5] [7] []
  exact ⟨h.1.trans (by decide), h.2 (fun _ t => t.map (15 - ·)) (by decide)⟩

/-- C2: for every output [y1, y2] and cotangent [c0, c1],
ReversibleHalfResidual.reverse_and_grad returns the same reconstructed
input as reverse, and its input and weight cotangents equal the ones of
the naive path (forward pass retaining all activations at the
reconstructed input, then standard reverse-mode differentiation). -/
theorem claim2_fused_gradients {W Wct : Type} [Inhabited Wct]
    (f : W → Tensor → Tensor) (fvx : W → Tensor → Tensor → Tensor)
    (fvw : W → Tensor → Tensor → Wct) (w wsub : W) (y1 y2 c0 c1 : Tensor) :
    (ReversibleHalfResidual.reverse_and_grad f fvx fvw w [y1, y2] [c0, c1]).1
        = ReversibleHalfResidual.reverse f [y1, y2] [w, wsub] [(), ()] [(), ()]
    ∧ (ReversibleHalfResidual.reverse_and_grad f fvx fvw w [y1, y2] [c0, c1]).2.1
        = (ReversibleHalfResidual.naive_grad f fvx fvw w
            (ReversibleHalfResidual.reverse_and_grad f fvx fvw w [y1, y2] [c0, c1]).1
            [c0, c1]).2.1
    ∧ (ReversibleHalfResidual.reverse_and_grad f fvx fvw w [y1, y2] [c0, c1]).2.2.1
        = (ReversibleHalfResidual.naive_grad f fvx fvw w
            (ReversibleHalfResidual.reverse_and_grad f fvx fvw w [y1, y2] [c0, c1]).1
            [c0, c1]).2.2 :=
  ⟨rfl, rfl, rfl⟩

theorem RH_reverse_and_grad_spec {W Wct : Type} [Inhabited Wct]
    (f : W → Tensor → Tensor) (fvx : W → Tensor → Tensor → Tensor)
    (fvw : W → Tensor → Tensor → Wct) (w : W) (y1 y2 c0 c1 : Tensor) :
    ReversibleHalfResidual.reverse_and_grad f fvx fvw w [y1, y2] [c0, c1]
      = ([tSub y1 (f w y2), y2],
         ([c0, tAdd c1 (fvx w y2 c0)], (fvw w y2 c0, ()))) := rfl

theorem RA_reverse_and_grad_spec {Wp WpCt Wq WqCt : Type} [Inhabited WpCt] [Inhabited WqCt]
    (pre : Wp → Tensor → Triple) (prevx : Wp → Tensor → Triple → Tensor)
    (prevw : Wp → Tensor → Triple → WpCt) (attFB : Triple → Tensor → Tensor × Triple)
    (post : Wq → Tensor → Tensor) (postvx : Wq → Tensor → Tensor → Tensor)
    (postvw : Wq → Tensor → Tensor → WqCt) (wp : Wp) (wq : Wq) (y1 y2 c0 c1 : Tensor) :
    ReversibleAttentionHalfResidual.reverse_and_grad pre prevx prevw attFB post
        postvx postvw wp wq [y1, y2] [c0, c1]
      = ([tSub y1 (post wq (attFB (pre wp y2) (postvx wq (pre wp y2).2.2 c0)).1), y2],
         ([c0, tAdd (prevx wp y2 (attFB (pre wp y2) (postvx wq (pre wp y2).2.2 c0)).2) c1],
          (prevw wp y2 (attFB (pre wp y2) (postvx wq (pre wp y2).2.2 c0)).2, (),
           postvw wq (attFB (pre wp y2) (postvx wq (pre wp y2).2.2 c0)).1 c0, ()))) := rfl

/-- C3: with an attention module whose fused forward-and-backward operation
agrees with its forward pass and vector-Jacobian product, and a
post-attention whose input vector-Jacobian product is independent of the
primal point (linearity, taken as hypothesis), the forward pass of
ReversibleAttentionHalfResidual equals the forward pass of the naive
composition ReversibleHalfResidual([pre_attention, attention,
post_attention]), and its reverse_and_grad returns the same reconstructed
input, input cotangent and weight cotangents as the naive composition;
without the linearity hypothesis the gradient equality need not hold (a
concrete quadratic post-attention separates the two). -/
theorem claim3_attention_fusion :
    (∀ (Wp WpCt Wq WqCt : Type) [Inhabited WpCt] [Inhabited WqCt]
        (pre : Wp → Tensor → Triple) (prevx : Wp → Tensor → Triple → Tensor)
        (prevw : Wp → Tensor → Triple → WpCt) (att : Triple → Tensor)
        (attv : Triple → Tensor → Triple) (attFB : Triple → Tensor → Tensor × Triple)
        (post : Wq → Tensor → Tensor) (postvx : Wq → Tensor → Tensor → Tensor)
        (postvw : Wq → Tensor → Tensor → WqCt) (wp : Wp) (wq : Wq)
        (x1 x2 y1 y2 c0 c1 : Tensor) (rest : Stack),
      (∀ q c, attFB q c = (att q, attv q c)) →
      (∀ p1 p2 c, postvx wq p1 c = postvx wq p2 c) →
      ReversibleAttentionHalfResidual.forward pre att post wp wq (x1 :: x2 :: rest)
          = ReversibleHalfResidual.forward
              (ReversibleAttentionHalfResidual.naiveRes pre att post) (wp, wq)
              (x1 :: x2 :: rest)
      ∧ (ReversibleAttentionHalfResidual.reverse_and_grad pre prevx prevw attFB post
            postvx postvw wp wq [y1, y2] [c0, c1]).1
          = (ReversibleHalfResidual.reverse_and_grad
              (ReversibleAttentionHalfResidual.naiveRes pre att post)
              (ReversibleAttentionHalfResidual.naiveResVjpX pre prevx att attv postvx)
              (ReversibleAttentionHalfResidual.naiveResVjpW pre prevw att attv postvx postvw)
              (wp, wq) [y1, y2] [c0, c1]).1
      ∧ (ReversibleAttentionHalfResidual.reverse_and_grad pre prevx prevw attFB post
            postvx postvw wp wq [y1, y2] [c0, c1]).2.1
          = (ReversibleHalfResidual.reverse_and_grad
              (ReversibleAttentionHalfResidual.naiveRes pre att post)
              (ReversibleAttentionHalfResidual.naiveResVjpX pre prevx att attv postvx)
              (ReversibleAttentionHalfResidual.naiveResVjpW pre prevw att attv postvx postvw)
              (wp, wq) [y1, y2] [c0, c1]).2.1
      ∧ (ReversibleAttentionHalfResidual.reverse_and_grad pre prevx prevw attFB post
            postvx postvw wp wq [y1, y2] [c0, c1]).2.2.1
          = (ReversibleHalfResidual.reverse_and_grad
              (ReversibleAttentionHalfResidual.naiveRes pre att post)
              (ReversibleAttentionHalfResidual.naiveResVjpX pre prevx att attv postvx)
              (ReversibleAttentionHalfResidual.naiveResVjpW pre prevw att attv postvx postvw)
              (wp, wq) [y1, y2] [c0, c1]).2.2.1.1
      ∧ (ReversibleAttentionHalfResidual.reverse_and_grad pre prevx prevw attFB post
            postvx postvw wp wq [y1, y2] [c0, c1]).2.2.2.2.1
          = (ReversibleHalfResidual.reverse_and_grad
              (ReversibleAttentionHalfResidual.naiveRes pre att post)
              (ReversibleAttentionHalfResidual.naiveResVjpX pre prevx att attv postvx)
              (ReversibleAttentionHalfResidual.naiveResVjpW pre prevw att attv postvx postvw)
              (wp, wq) [y1, y2] [c0, c1]).2.2.1.2)
    ∧ (ReversibleAttentionHalfResidual.reverse_and_grad
          (fun (_ : Unit) (x : Tensor) => (x, x, x))
          (fun _ _ c => tAdd c.1 (tAdd c.2.1 c.2.2))
          (fun _ _ _ => ())
          (fun q c => (tAdd q.1 q.1,
            (tAdd c c, c.map (fun _ => (0 : Int)), c.map (fun _ => (0 : Int)))))
          (fun (_ : Unit) (a : Tensor) => List.zipWith (· * ·) a a)
          (fun _ p c => List.zipWith (· * ·) (tAdd p p) c)
          (fun _ _ _ => ()) () () [[0], [1]] [[1], [0]]).2.1
        ≠ (ReversibleHalfResidual.reverse_and_grad
            (ReversibleAttentionHalfResidual.naiveRes
              (fun (_ : Unit) (x : Tensor) => (x, x, x))
              (fun q => tAdd q.1 q.1)
              (fun (_ : Unit) (a : Tensor) => List.zipWith (· * ·) a a))
            (ReversibleAttentionHalfResidual.naiveResVjpX
              (fun (_ : Unit) (x : Tensor) => (x, x, x))
              (fun _ _ c => tAdd c.1 (tAdd c.2.1 c.2.2))
              (fun q => tAdd q.1 q.1)
              (fun _ c => (tAdd c c, c.map (fun _ => (0 : Int)), c.map (fun _ => (0 : Int))))
              (fun _ p c => List.zipWith (· * ·) (tAdd p p) c))
            (ReversibleAttentionHalfResidual.naiveResVjpW
              (fun (_ : Unit) (x : Tensor) => (x, x, x))
              (fun _ _ _ => ())
              (fun q => tAdd q.1 q.1)
              (fun _ c => (tAdd c c, c.map (fun _ => (0 : Int)), c.map (fun _ => (0 : Int))))
              (fun _ p c => List.zipWith (· * ·) (tAdd p p) c)
              (fun _ _ _ => ()))
            ((), ()) [[0], [1]] [[1], [0]]).2.1 := by
  constructor
  · intro Wp WpCt Wq WqCt instp instq pre prevx prevw att attv attFB post postvx postvw
      wp wq x1 x2 y1 y2 c0 c1 rest hFB hlin
    refine ⟨rfl, ?_, ?_, ?_, ?_⟩
    · rw [RA_reverse_and_grad_spec, RH_reverse_and_grad_spec]
      simp [hFB, ReversibleAttentionHalfResidual.naiveRes]
    · rw [RA_reverse_and_grad_spec, RH_reverse_and_grad_spec]
      simp only [hFB, ReversibleAttentionHalfResidual.naiveResVjpX]
      rw [hlin ((pre wp y2).2.2) (att (pre wp y2)) c0, tAdd_comm]
    · rw [RA_reverse_and_grad_spec, RH_reverse_and_grad_spec]
      simp only [hFB, ReversibleAttentionHalfResidual.naiveResVjpW]
      rw [hlin ((pre wp y2).2.2) (att (pre wp y2)) c0]
    · rw [RA_reverse_and_grad_spec, RH_reverse_and_grad_spec]
      simp [hFB, ReversibleAttentionHalfResidual.naiveResVjpW]
  · decide

/-- Concrete instance of C3: a linear post-attention (doubling), identity-like
attention and triplicating pre-attention, at output ([2], [3]) with
cotangent ([1], [1]). -/
theorem claim3_witness :
    (ReversibleAttentionHalfResidual.reverse_and_grad
        (fun (_ : Unit) (x : Tensor) => (x, x, x))
        (fun _ _ c => tAdd c.1 (tAdd c.2.1 c.2.2)) (fun _ _ _ => ())
        (fun q c => (q.1, (c, c.map (fun _ => (0 : Int)), c.map (fun _ => (0 : Int)))))
        (fun (_ : Unit) (a : Tensor) => tAdd a a)
        (fun _ _ c => tAdd c c) (fun _ _ _ => ()) () () [[2], [3]] [[1], [1]]).2.1
      = (ReversibleHalfResidual.reverse_and_grad
          (ReversibleAttentionHalfResidual.naiveRes
            (fun (_ : Unit) (x : Tensor) => (x, x, x))
            (fun q => q.1) (fun (_ : Unit) (a : Tensor) => tAdd a a))
          (ReversibleAttentionHalfResidual.naiveResVjpX
            (fun (_ : Unit) (x : Tensor) => (x, x, x))
            (fun _ _ c => tAdd c.1 (tAdd c.2.1 c.2.2)) (fun q => q.1)
            (fun _ c => (c, c.map (fun _ => (0 : Int)), c.map (fun _ => (0 : Int))))
            (fun _ _ c => tAdd c c))
          (ReversibleAttentionHalfResidual.naiveResVjpW
            (fun (_ : Unit) (x : Tensor) => (x, x, x))
            (fun _ _ _ => ()) (fun q => q.1)
            (fun _ c => (c, c.map (fun _ => (0 : Int)), c.map (fun _ => (0 : Int))))
            (fun _ _ c => tAdd c c) (fun _ _ _ => ()))
          ((), ()) [[2], [3]] [[1], [1]]).2.1 :=
  (claim3_attention_fusion.1 Unit Unit Unit Unit
    (fun _ x => (x, x, x)) (fun _ _ c => tAdd c.1 (tAdd c.2.1 c.2.2)) (fun _ _ _ => ())
    (fun q => q.1) (fun _ c => (c, c.map (fun _ => (0 : Int)), c.map (fun _ => (0 : Int))))
    (fun q c => (q.1, (c, c.map (fun _ => (0 : Int)), c.map (fun _ => (0 : Int)))))
    (fun _ a => tAdd a a) (fun _ _ c => tAdd c c) (fun _ _ _ => ())
    () () [] [] [2] [3] [1] [1] []
    (fun _ _ => rfl) (fun _ _ _ => rfl)).2.2.1

theorem zipWith_map_same {α β γ δ : Type} (g : β → γ → δ) (f1 : α → β) (f2 : α → γ)
    (l : List α) :
    List.zipWith g (l.map f1) (l.map f2) = l.map (fun a => g (f1 a) (f2 a)) := by
  induction l with
  | nil => rfl
  | cons a t ih => simp [ih]

theorem map_zipWith_comp {α β γ δ : Type} (g : γ → δ) (f : α → β → γ)
    (A : List α) (B : List β) :
    (List.zipWith f A B).map g = List.zipWith (fun a b => g (f a b)) A B := by
  induction A generalizing B with
  | nil => rfl
  | cons a t ih => cases B with
    | nil => rfl
    | cons b s => simp [ih]

theorem zipWith_map_map {α β α2 β2 γ : Type} (f : α2 → β2 → γ) (g : α → α2) (h : β → β2)
    (A : List α) (B : List β) :
    List.zipWith f (A.map g) (B.map h) = List.zipWith (fun a b => f (g a) (h b)) A B := by
  induction A generalizing B with
  | nil => rfl
  | cons a t ih => cases B with
    | nil => rfl
    | cons b s => simp [ih]

theorem zipWith_congr_mem {α β γ : Type} (f g : α → β → γ) (A : List α) (B : List β)
    (h : ∀ a ∈ A, ∀ b ∈ B, f a b = g a b) :
    List.zipWith f A B = List.zipWith g A B := by
  induction A generalizing B with
  | nil => rfl
  | cons a t ih => cases B with
    | nil => rfl
    | cons b s =>
      simp only [List.zipWith_cons_cons]
      rw [h a (by simp) b (by simp),
        ih s (fun a2 ha2 b2 hb2 => h a2 (by simp [ha2]) b2 (by simp [hb2]))]

theorem zipWith_const_left {α β γ : Type} (f : α → γ) (A : List α) (B : List β)
    (h : A.length = B.length) :
    List.zipWith (fun a _ => f a) A B = A.map f := by
  induction A generalizing B with
  | nil => rfl
  | cons a t ih => cases B with
    | nil => simp at h
    | cons b s => simp [ih s (by simpa using h)]

theorem zipWith_const_right {α β γ : Type} (f : β → γ) (A : List α) (B : List β)
    (h : A.length = B.length) :
    List.zipWith (fun _ b => f b) A B = B.map f := by
  induction A generalizing B with
  | nil => cases B with
    | nil => rfl
    | cons b s => simp at h
  | cons a t ih => cases B with
    | nil => simp at h
    | cons b s => simp [ih s (by simpa using h)]

theorem take_half_append (r1 r2 : List Int) (h : r1.length = r2.length) :
    (r1 ++ r2).take ((r1 ++ r2).length / 2) = r1 := by
  have h2 : (r1 ++ r2).length / 2 = r1.length := by
    rw [List.length_append]; omega
  rw [h2, List.take_left]

theorem drop_half_append (r1 r2 : List Int) (h : r1.length = r2.length) :
    (r1 ++ r2).drop ((r1 ++ r2).length / 2) = r2 := by
  have h2 : (r1 ++ r2).length / 2 = r1.length := by
    rw [List.length_append]; omega
  rw [h2, List.drop_left]

theorem rows_take_half (A B : List (List Int)) (d : Nat)
    (hA : ∀ r ∈ A, r.length = d) (hB : ∀ s ∈ B, s.length = d)
    (h : A.length = B.length) :
    (List.zipWith (· ++ ·) A B).map (fun r => r.take (r.length / 2)) = A := by
  induction A generalizing B with
  | nil => rfl
  | cons r A2 ih =>
    cases B with
    | nil => simp at h
    | cons s B2 =>
      simp only [List.zipWith_cons_cons, List.map_cons]
      rw [take_half_append r s (by rw [hA r (by simp), hB s (by simp)]),
        ih B2 (fun r2 hr2 => hA r2 (by simp [hr2])) (fun s2 hs2 => hB s2 (by simp [hs2]))
          (by simpa using h)]

theorem rows_drop_half (A B : List (List Int)) (d : Nat)
    (hA : ∀ r ∈ A, r.length = d) (hB : ∀ s ∈ B, s.length = d)
    (h : A.length = B.length) :
    (List.zipWith (· ++ ·) A B).map (fun r => r.drop (r.length / 2)) = B := by
  induction A generalizing B with
  | nil => cases B with
    | nil => rfl
    | cons s B2 => simp at h
  | cons r A2 ih =>
    cases B with
    | nil => simp at h
    | cons s B2 =>
      simp only [List.zipWith_cons_cons, List.map_cons]
      rw [drop_half_append r s (by rw [hA r (by simp), hB s (by simp)]),
        ih B2 (fun r2 hr2 => hA r2 (by simp [hr2])) (fun s2 hs2 => hB s2 (by simp [hs2]))
          (by simpa using h)]

theorem mem_of_mem_msec {n i : Nat} {m : List (List Int)} {r : List Int}
    (h : r ∈ SplitForOutput.msec n i m) : r ∈ m :=
  List.Sublist.mem h ((List.take_sublist _ _).trans (List.drop_sublist _ _))

theorem msec_length (n i : Nat) (m : List (List Int)) :
    (SplitForOutput.msec n i m).length
      = min (m.length / n) (m.length - i * (m.length / n)) := by
  simp [SplitForOutput.msec, List.length_take, List.length_drop]

theorem halfLo_concat_msec (n i B L d : Nat) (x1 x2 : Arr3)
    (h1 : SplitForOutput.Rect x1 B L d) (h2 : SplitForOutput.Rect x2 B L d) :
    SplitForOutput.halfLo (SplitForOutput.concatLast
        (x1.map (SplitForOutput.msec n i)) (x2.map (SplitForOutput.msec n i)))
      = x1.map (SplitForOutput.msec n i) := by
  unfold SplitForOutput.halfLo SplitForOutput.concatLast
  rw [map_zipWith_comp, zipWith_map_map]
  rw [zipWith_congr_mem _ (fun m1 _ => SplitForOutput.msec n i m1) x1 x2 ?_]
  · exact zipWith_const_left _ x1 x2 (h1.1.trans h2.1.symm)
  · intro m1 hm1 m2 hm2
    refine rows_take_half _ _ d ?_ ?_ ?_
    · intro r hr
      exact ((h1.2 m1 hm1).2 r (mem_of_mem_msec hr))
    · intro s hs
      exact ((h2.2 m2 hm2).2 s (mem_of_mem_msec hs))
    · rw [msec_length, msec_length, (h1.2 m1 hm1).1, (h2.2 m2 hm2).1]

theorem halfHi_concat_msec (n i B L d : Nat) (x1 x2 : Arr3)
    (h1 : SplitForOutput.Rect x1 B L d) (h2 : SplitForOutput.Rect x2 B L d) :
    SplitForOutput.halfHi (SplitForOutput.concatLast
        (x1.map (SplitForOutput.msec n i)) (x2.map (SplitForOutput.msec n i)))
      = x2.map (SplitForOutput.msec n i) := by
  unfold SplitForOutput.halfHi SplitForOutput.concatLast
  rw [map_zipWith_comp, zipWith_map_map]
  rw [zipWith_congr_mem _ (fun _ m2 => SplitForOutput.msec n i m2) x1 x2 ?_]
  · exact zipWith_const_right _ x1 x2 (h1.1.trans h2.1.symm)
  · intro m1 hm1 m2 hm2
    refine rows_drop_half _ _ d ?_ ?_ ?_
    · intro r hr
      exact ((h1.2 m1 hm1).2 r (mem_of_mem_msec hr))
    · intro s hs
      exact ((h2.2 m2 hm2).2 s (mem_of_mem_msec hs))
    · rw [msec_length, msec_length, (h1.2 m1 hm1).1, (h2.2 m2 hm2).1]

theorem sections_flatten {α : Type} (n k : Nat) (m : List α) (h : m.length = n * k) :
    ((List.range n).map (fun i => (m.drop (i * k)).take k)).flatten = m := by
  induction n generalizing m with
  | zero =>
    have hm : m = [] := by
      rw [← List.length_eq_zero]; omega
    subst hm; rfl
  | succ n ih =>
    rw [List.range_succ_eq_map, List.map_cons, List.flatten_cons, List.map_map]
    have htail : (List.range n).map ((fun i => (m.drop (i * k)).take k) ∘ Nat.succ)
        = (List.range n).map (fun i => ((m.drop k).drop (i * k)).take k) := by
      refine List.map_congr_left (fun i _ => ?_)
      simp only [Function.comp]
      rw [List.drop_drop]
      congr 2
      rw [Nat.succ_mul, Nat.mul_comm i k, Nat.add_comm]
    have hlen : (m.drop k).length = n * k := by
      rw [List.length_drop, h, Nat.succ_mul]; omega
    rw [htail, ih (m.drop k) hlen]
    simp only [Nat.zero_mul, List.drop_zero]
    exact List.take_append_drop k m

theorem map_cons_as_zipWith {α γ : Type} (f : α → γ) (g : α → List γ) (l : List α) :
    l.map (fun i => f i :: g i) = List.zipWith (· :: ·) (l.map f) (l.map g) := by
  induction l with
  | nil => rfl
  | cons a t ih =>
    simp only [List.map_cons, List.zipWith_cons_cons]
    rw [ih]

theorem concatAxis1_cons2 (a b : Arr3) (l : List Arr3) :
    SplitForOutput.concatAxis1 (a :: b :: l)
      = List.zipWith (· ++ ·) a (SplitForOutput.concatAxis1 (b :: l)) := rfl

theorem concatAxis1_nil_elems (l : List Arr3) (h : ∀ t ∈ l, t = []) :
    SplitForOutput.concatAxis1 l = [] := by
  induction l with
  | nil => rfl
  | cons t l2 ih =>
    cases l2 with
    | nil => exact h t (by simp)
    | cons u l3 =>
      rw [concatAxis1_cons2, h t (by simp)]
      rfl

theorem concat_zip_cons (ms : List (List (List Int))) (ts : List Arr3)
    (hlen : ms.length = ts.length) (hne : ms ≠ []) :
    SplitForOutput.concatAxis1 (List.zipWith (· :: ·) ms ts)
      = ms.flatten :: SplitForOutput.concatAxis1 ts := by
  induction ms generalizing ts with
  | nil => exact absurd rfl hne
  | cons m ms2 ih =>
    cases ts with
    | nil => simp at hlen
    | cons t ts2 =>
      cases ms2 with
      | nil =>
        cases ts2 with
        | nil => simp [SplitForOutput.concatAxis1]
        | cons t2 ts3 => simp at hlen
      | cons m2 ms3 =>
        cases ts2 with
        | nil => simp at hlen
        | cons t2 ts3 =>
          rw [List.zipWith_cons_cons, List.zipWith_cons_cons, concatAxis1_cons2,
            ← List.zipWith_cons_cons (f := (· :: ·)),
            ih (t2 :: ts3) (by simpa using hlen) (by simp),
            List.zipWith_cons_cons, concatAxis1_cons2]
          simp [List.flatten_cons]

theorem concat_sections_tensor (n : Nat) (x : Arr3) (hn : 0 < n)
    (h : ∀ m ∈ x, n ∣ m.length) :
    SplitForOutput.concatAxis1
        ((List.range n).map (fun i => x.map (SplitForOutput.msec n i))) = x := by
  induction x with
  | nil =>
    refine concatAxis1_nil_elems _ (fun t ht => ?_)
    simp only [List.mem_map, List.map_nil] at ht
    obtain ⟨i, _, hit⟩ := ht
    exact hit.symm
  | cons m xs ih =>
    simp only [List.map_cons]
    rw [map_cons_as_zipWith (fun i => SplitForOutput.msec n i m)
        (fun i => xs.map (SplitForOutput.msec n i))]
    rw [concat_zip_cons _ _ (by simp) ?_]
    · rw [ih (fun m2 hm2 => h m2 (by simp [hm2]))]
      congr 1
      have hk : m.length = n * (m.length / n) := by
        rw [Nat.mul_comm]
        exact (Nat.div_mul_cancel (h m (by simp))).symm
      exact sections_flatten n (m.length / n) m hk
    · have : (List.range n) ≠ [] := by
        intro hcon
        have : n = 0 := by simpa using congrArg List.length hcon
        omega
      simpa using this

/-- C6: for every pair of equal-shaped rank-3 tensors whose split (length)
axis is divisible by n_sections, SplitForOutput.reverse applied to
SplitForOutput.forward returns the original pair exactly. -/
theorem claim6_split_roundtrip (n B L d : Nat) (x1 x2 : Arr3) (hn : 0 < n) (hL : n ∣ L)
    (h1 : SplitForOutput.Rect x1 B L d) (h2 : SplitForOutput.Rect x2 B L d) :
    SplitForOutput.reverse (SplitForOutput.forward n x1 x2) = (x1, x2) := by
  have hfwd : SplitForOutput.forward n x1 x2
      = (List.range n).map (fun i => SplitForOutput.concatLast
          (x1.map (SplitForOutput.msec n i)) (x2.map (SplitForOutput.msec n i))) := by
    unfold SplitForOutput.forward SplitForOutput.splitAxis1
    exact zipWith_map_same _ _ _ _
  have hd1 : ∀ m ∈ x1, n ∣ m.length := fun m hm => by
    rw [(h1.2 m hm).1]; exact hL
  have hd2 : ∀ m ∈ x2, n ∣ m.length := fun m hm => by
    rw [(h2.2 m hm).1]; exact hL
  have e1 : (SplitForOutput.forward n x1 x2).map SplitForOutput.halfLo
      = (List.range n).map (fun i => x1.map (SplitForOutput.msec n i)) := by
    rw [hfwd, List.map_map]
    exact List.map_congr_left (fun i _ => halfLo_concat_msec n i B L d x1 x2 h1 h2)
  have e2 : (SplitForOutput.forward n x1 x2).map SplitForOutput.halfHi
      = (List.range n).map (fun i => x2.map (SplitForOutput.msec n i)) := by
    rw [hfwd, List.map_map]
    exact List.map_congr_left (fun i _ => halfHi_concat_msec n i B L d x1 x2 h1 h2)
  unfold SplitForOutput.reverse
  rw [e1, e2, concat_sections_tensor n x1 hn hd1, concat_sections_tensor n x2 hn hd2]

/-- Concrete instance of C6: x1, x2 of shape [2, 8, 4] and n_sections = 2;
the forward pass produces 2 tensors of shape [2, 4, 8] and the reverse
recovers the pair. -/
theorem claim6_witness :
    SplitForOutput.reverse (SplitForOutput.forward 2
        ((List.range 2).map (fun b => (List.range 8).map (fun l =>
          (List.range 4).map (fun k => (b * 100 + l * 10 + k : Int)))))
        ((List.range 2).map (fun b => (List.range 8).map (fun l =>
          (List.range 4).map (fun k => (1000 + b * 100 + l * 10 + k : Int))))))
      = ((List.range 2).map (fun b => (List.range 8).map (fun l =>
          (List.range 4).map (fun k => (b * 100 + l * 10 + k : Int)))),
         (List.range 2).map (fun b => (List.range 8).map (fun l =>
          (List.range 4).map (fun k => (1000 + b * 100 + l * 10 + k : Int)))))
    ∧ (SplitForOutput.forward 2
        ((List.range 2).map (fun b => (List.range 8).map (fun l =>
          (List.range 4).map (fun k => (b * 100 + l * 10 + k : Int)))))
        ((List.range 2).map (fun b => (List.range 8).map (fun l =>
          (List.range 4).map (fun k => (1000 + b * 100 + l * 10 + k : Int)))))).map
        SplitForOutput.shape3 = [[2, 4, 8], [2, 4, 8]] :=
  ⟨claim6_split_roundtrip 2 2 8 4 _ _ (by decide) (by decide) (by decide) (by decide),
   by decide⟩

/-- C5: for every tensor of rank at least 2 whose second axis extent is
divisible by n_sections (positive), Unchunk inverts Chunk exactly. -/
theorem claim5_chunk_roundtrip (n b l : Nat) (rest : List Nat) (x : NdArray)
    (hs : x.shape = b :: l :: rest) (hn : 0 < n) (hd : l % n = 0) :
    (Chunk n x).bind (Unchunk n) = some x := by
  cases x with
  | mk shape data =>
    simp only at hs
    subst hs
    simp only [Chunk]
    rw [if_pos ⟨hn, hd⟩]
    simp only [Option.some_bind, Unchunk]
    rw [if_pos ⟨hn, Nat.mul_mod_left b n⟩]
    rw [Nat.mul_div_cancel b hn, Nat.div_mul_cancel (Nat.dvd_of_mod_eq_zero hd)]

/-- Concrete instance of C5: shape [2, 6, 3], n_sections = 3. -/
theorem claim5_witness :
    (Chunk 3 ⟨[2, 6, 3], (List.range 36).map Int.ofNat⟩).bind (Unchunk 3)
      = some ⟨[2, 6, 3], (List.range 36).map Int.ofNat⟩ :=
  claim5_chunk_roundtrip 3 2 6 [3] _ rfl (by decide) (by decide)

/-- C7: Chunk fails (no value) when the length axis is not divisible by
n_sections, and Chunk with n_sections = 1 is the identity. -/
theorem claim7_chunk_divisibility :
    (∀ (n : Nat) (x : NdArray) (b l : Nat) (rest : List Nat),
        x.shape = b :: l :: rest → ¬ n ∣ l → Chunk n x = none)
    ∧ ∀ (x : NdArray) (b l : Nat) (rest : List Nat),
        x.shape = b :: l :: rest → Chunk 1 x = some x := by
  constructor
  · intro n x b l rest hs hnd
    cases x with
    | mk shape data =>
      simp only at hs
      subst hs
      simp only [Chunk]
      rw [if_neg]
      rintro ⟨hn, hmod⟩
      exact hnd (Nat.dvd_of_mod_eq_zero hmod)
  · intro x b l rest hs
    cases x with
    | mk shape data =>
      simp only at hs
      subst hs
      simp [Chunk, Nat.mod_one]

/-- Concrete instance of C7: length 5 is not divisible by 2, and
n_sections = 1 leaves the tensor unchanged. -/
theorem claim7_witness :
    Chunk 2 ⟨[3, 5], [0]⟩ = none ∧ Chunk 1 ⟨[3, 5], [0]⟩ = some ⟨[3, 5], [0]⟩ :=
  ⟨claim7_chunk_divisibility.1 2 ⟨[3, 5], [0]⟩ 3 5 [] rfl (by decide),
   claim7_chunk_divisibility.2 ⟨[3, 5], [0]⟩ 3 5 [] rfl⟩

/-- C10: SplitForOutput.reverse_and_grad returns (reverse(output),
(reverse(ct), ())): the reconstructed input is reverse of the output, the
input cotangent is reverse of the output cotangent (the forward pass being
a weight-free rearrangement of entries) and the weight cotangent is empty. -/
theorem claim10_reverse_and_grad (output ct : List Arr3) :
    SplitForOutput.reverse_and_grad output ct
      = (SplitForOutput.reverse output, (SplitForOutput.reverse ct, ())) := rfl

/-- C8 counterexample: ReversibleHalfResidual.reverse with state/new_state
sequences that do not align with the two reverse sub-layers (here empty
sequences against two sub-layers) silently returns the unchanged output —
a value, not an error — and that value differs from the correct
reconstruction of the input. -/
theorem claim8_counterexample :
    ReversibleHalfResidual.reverse (fun (_ : Unit) (t : Tensor) => t.map (· + 1))
        (ReversibleHalfResidual.forward (fun (_ : Unit) (t : Tensor) => t.map (· + 1)) ()
          [[0], [0]]) [] [] []
      = ReversibleHalfResidual.forward (fun (_ : Unit) (t : Tensor) => t.map (· + 1)) ()
          [[0], [0]]
    ∧ ReversibleHalfResidual.forward (fun (_ : Unit) (t : Tensor) => t.map (· + 1)) ()
          [[0], [0]] ≠ [[0], [0]] :=
  ⟨rfl, by decide⟩

/-- C8 amended: no validation is performed — the reverse path zips
weights/state/new_state against its sub-layers and silently truncates to
the shortest sequence, so with an empty state sequence every sub-layer is
skipped and the output is returned unchanged; no ShapeMismatch or
NonInvertibleState error exists in this code. -/
theorem claim8_amended {W : Type} (f : W → Tensor → Tensor) (output : Stack)
    (weights : List W) (new_state : List Unit) :
    ReversibleHalfResidual.reverse f output weights [] new_state = output := by
  cases weights <;> rfl
